import Mathlib

/-!
Verification development for the `LossModelCalculator` module of the
gemact loss-modeling library (`gemact/calculators.py`).

The module is a collection of pure numerical routines:

* three aggregate-loss aggregators: `fast_fourier_transform`,
  `panjer_recursion`, `mc_simulation`;
* five severity discretizers: `mass_dispersal`, `lower_discretization`,
  `upper_discretization`, `local_moments` and the helper
  `upper_discr_point_prob_adjuster`.

Modelling choices:

* Machine floats are modelled by `ℚ` (exact arithmetic).
* A severity model and a frequency model are external capabilities
  (duck-typed objects in the source); they are modelled as structures of
  abstract functions.
* numpy's numerical kernels (`np.fft.fft`, `np.fft.ifft`, `np.exp`) are
  external library calls; they are modelled as abstract function fields
  of a `FourierOps` capability bundle.  Complex values are pairs `ℚ × ℚ`
  whose first component is the real part.
* `float('inf')` used as the "no upper truncation" sentinel for
  `exit_point` is modelled by `Option ℚ` with `none` standing for
  infinity.
* numpy's globally seeded PRNG (`np.random.seed(s)` followed by
  `np.random.uniform` draws) is modelled by an abstract stream
  `ustream : ℕ → ℕ → ℚ`: `ustream s i` is the `i`-th raw uniform draw in
  `[0,1)` after seeding with `s`; `np.random.uniform(low, high)` is
  `low + (high - low) * raw`, which is numpy's definition.
-/

namespace Gemact

/-- Modelled from the spec: `config.PROB_TOLERANCE`, the process-wide
numerical tolerance constant (≈ 1e-6) living in the excluded `config`
module; only its use sites are in `calculators.py`. -/
def PROB_TOLERANCE : ℚ := 1 / 1000000

/-- Complex value: real and imaginary part. -/
abbrev Cplx := ℚ × ℚ

/-- Abstract severity model capability set (external collaborator):
`cdf`, location offset `loc`, limited expected value `lev`, density-like
normalizer `den low loc`, inverse cdf `ppf`. -/
structure SeverityModel where
  cdf : ℚ → ℚ
  loc : ℚ
  lev : ℚ → ℚ
  den : ℚ → ℚ → ℚ
  ppf : ℚ → ℚ

/-- Abstract frequency model capability set (external collaborator):
probability generating function on transform values, point mass function,
seeded claim-count sampler `rvs n seed`, and Panjer coefficient extractor
`abp0g0 fj = (a, b, p0, g0)`. -/
structure FrequencyModel where
  pgf : List Cplx → List Cplx
  pmf : ℕ → ℚ
  rvs : ℕ → ℕ → List ℕ
  abp0g0 : List ℚ → ℚ × ℚ × ℚ × ℚ

/-- Abstract numpy numerical kernels used by the FFT aggregator. -/
structure FourierOps where
  fft : List Cplx → List Cplx
  ifft : List Cplx → List Cplx
  exp : ℚ → ℚ

/-- Discretized severity record `{nodes, fj}`. -/
structure DiscrSev where
  nodes : List ℚ
  fj : List ℚ

/-- Aggregate distribution record `{cdf, nodes}` together with the
warning diagnostic: `warn = some c` models `logger.warning` being called
with the last cumulative probability `c` in the message, `warn = none`
models no warning. -/
structure AggResult where
  cdf : List ℚ
  nodes : List ℚ
  warn : Option ℚ

/-- Aggregate distribution record `{cdf, nodes}` of the Monte Carlo
aggregator (which emits no warning). -/
structure CdfNodes where
  cdf : List ℚ
  nodes : List ℚ

/-- `np.cumsum` with a running accumulator. -/
def cumsumFrom (acc : ℚ) : List ℚ → List ℚ
  | [] => []
  | x :: xs => (acc + x) :: cumsumFrom (acc + x) xs

/-- `np.cumsum` on rationals. -/
def cumsum (l : List ℚ) : List ℚ := cumsumFrom 0 l

/-- `np.cumsum` on naturals (used for the claim-count boundaries). -/
def cumsumNatFrom (acc : ℕ) : List ℕ → List ℕ
  | [] => []
  | x :: xs => (acc + x) :: cumsumNatFrom (acc + x) xs

/-- `np.cumsum` on naturals. -/
def cumsumNat (l : List ℕ) : List ℕ := cumsumNatFrom 0 l

/-- `arr[-1]`, defaulting to 0 on the empty list (the source indexes a
nonempty array). -/
def lastD (l : List ℚ) : ℚ := l.getLast?.getD 0

/-- The node grid `discr_step * np.arange(0, m)`. -/
def gridNodes (m : ℕ) (discr_step : ℚ) : List ℚ :=
  (List.range m).map (fun (j : ℕ) => discr_step * (j : ℚ))

/-- Severity discretization by the mass dispersal method
(`LossModelCalculator.mass_dispersal`). -/
def mass_dispersal (severity : SeverityModel) (deductible : ℚ)
    (exit_point : Option ℚ) (discr_step : ℚ) (n_discr_nodes : ℕ) : DiscrSev :=
  let F := severity.cdf
  let f0 := (F (deductible + discr_step / 2) - F deductible) / (1 - F deductible)
  let fj0 := f0 :: (List.range (n_discr_nodes - 1)).map (fun (k : ℕ) =>
    (F (deductible + ((k : ℚ) + 1 + 1/2) * discr_step) -
      F (deductible + ((k : ℚ) + 1/2) * discr_step)) / (1 - F deductible))
  let fj := match exit_point with
    | some u => fj0 ++ [(1 - F (u - discr_step / 2)) / (1 - F deductible)]
    | none => fj0
  let nodes0 := (List.range n_discr_nodes).map
    (fun (j : ℕ) => severity.loc + (j : ℚ) * discr_step)
  let nodes := match exit_point with
    | some _ => nodes0 ++ [nodes0.getLast?.getD 0 + discr_step]
    | none => nodes0
  ⟨nodes, fj⟩

/-- Severity discretization by the lower discretization method
(`LossModelCalculator.lower_discretization`).  The first mass is the
source's literal `(cdf(d) - cdf(d)) / (1 - cdf(d))`. -/
def lower_discretization (severity : SeverityModel) (deductible : ℚ)
    (exit_point : Option ℚ) (discr_step : ℚ) (n_discr_nodes : ℕ) : DiscrSev :=
  let F := severity.cdf
  let f0 := (F deductible - F deductible) / (1 - F deductible)
  let fj0 := f0 :: (List.range (n_discr_nodes - 1)).map (fun (k : ℕ) =>
    (F (deductible + ((k : ℚ) + 1) * discr_step) -
      F (deductible + (k : ℚ) * discr_step)) / (1 - F deductible))
  let fj := match exit_point with
    | some u => fj0 ++ [(1 - F (u - discr_step)) / (1 - F deductible)]
    | none => fj0
  let nodes0 := (List.range n_discr_nodes).map
    (fun (j : ℕ) => severity.loc + (j : ℚ) * discr_step)
  let nodes := match exit_point with
    | some _ => nodes0 ++ [nodes0.getLast?.getD 0 + discr_step]
    | none => nodes0
  ⟨nodes, fj⟩

/-- Severity discretization by the upper discretization method
(`LossModelCalculator.upper_discretization`).  Note: the source extends
`fj` by the truncation mass when `exit_point` is finite but does NOT
extend `nodes`. -/
def upper_discretization (severity : SeverityModel) (deductible : ℚ)
    (exit_point : Option ℚ) (discr_step : ℚ) (n_discr_nodes : ℕ) : DiscrSev :=
  let F := severity.cdf
  let fj0 := (List.range n_discr_nodes).map (fun (k : ℕ) =>
    (F (deductible + ((k : ℚ) + 1) * discr_step) -
      F (deductible + (k : ℚ) * discr_step)) / (1 - F deductible))
  let fj := match exit_point with
    | some u => fj0 ++ [(1 - F u) / (1 - F deductible)]
    | none => fj0
  let nodes := (List.range n_discr_nodes).map
    (fun (j : ℕ) => severity.loc + (j : ℚ) * discr_step)
  ⟨nodes, fj⟩

/-- Terminal-bucket probability of the local moments method
(`LossModelCalculator.upper_discr_point_prob_adjuster`); the empty list
models the empty `np.array([])` returned when `exit_point` is infinite. -/
def upper_discr_point_prob_adjuster (severity : SeverityModel) (deductible : ℚ)
    (exit_point : Option ℚ) (discr_step : ℚ) : List ℚ :=
  match exit_point with
  | none => []
  | some u =>
    [(severity.lev (u - severity.loc) - severity.lev (u - severity.loc - discr_step)) /
      (discr_step * severity.den deductible severity.loc)]

/-- Severity discretization by the local moments method
(`LossModelCalculator.local_moments`). -/
def local_moments (severity : SeverityModel) (deductible : ℚ)
    (exit_point : Option ℚ) (discr_step : ℚ) (n_discr_nodes : ℕ) : DiscrSev :=
  let last_node_prob :=
    upper_discr_point_prob_adjuster severity deductible exit_point discr_step
  let n := severity.lev (deductible + discr_step - severity.loc) -
    severity.lev (deductible - severity.loc)
  let den := discr_step * severity.den deductible severity.loc
  let nj := (List.range (n_discr_nodes - 1)).map (fun (k : ℕ) =>
    2 * severity.lev (deductible - severity.loc + ((k : ℚ) + 1) * discr_step) -
      severity.lev (deductible - severity.loc + (k : ℚ) * discr_step) -
      severity.lev (deductible - severity.loc + ((k : ℚ) + 2) * discr_step))
  let fj := (1 - n / den) :: nj.map (fun x => x / den)
  let nodes0 := (List.range n_discr_nodes).map
    (fun (j : ℕ) => severity.loc + (j : ℚ) * discr_step)
  let nodes := match exit_point with
    | some _ => nodes0 ++ [nodes0.getLast?.getD 0 + discr_step]
    | none => nodes0
  ⟨nodes, fj ++ last_node_prob⟩

/-- Zero-padded element access: `np.append(fj, np.repeat(0, m - len(fj)))`
read at index `k` (the source assumes `m ≥ len(fj)`). -/
def padded (fj : List ℚ) : ℕ → ℚ := fun k => fj.getD k 0

/-- `g = g / np.sum(g)` when the `normalize` flag is set. -/
def normIf (normalize : Bool) (g : List ℚ) : List ℚ :=
  if normalize then g.map (fun x => x / g.sum) else g

/-- Shared tail of the two deterministic aggregators: optional
normalization, `np.minimum(np.cumsum(g), 1)`, shortfall warning, and the
regular node grid. -/
def aggPost (g : List ℚ) (normalize : Bool) (n_aggr_dist_nodes : ℕ)
    (discr_step : ℚ) : AggResult :=
  let g := normIf normalize g
  let cum_probs := (cumsum g).map (fun x => min x 1)
  let warn := if PROB_TOLERANCE < 1 - lastD cum_probs
    then some (lastD cum_probs) else none
  ⟨cum_probs, gridNodes n_aggr_dist_nodes discr_step, warn⟩

/-- The aggregate pmf `g` computed by the FFT aggregator before the
optional normalization: tilt, forward transform, pgf, inverse transform,
real part, untilt. -/
def fft_g (severity : DiscrSev) (frequency : FrequencyModel)
    (n_aggr_dist_nodes : ℕ) (tilt : Bool) (tilt_value : Option ℚ)
    (ops : FourierOps) : List ℚ :=
  let tilting_par := if tilt then
      (match tilt_value with
        | none => 20 / (n_aggr_dist_nodes : ℚ)
        | some v => v)
    else 0
  let fjp := padded severity.fj
  let f_hat := ops.fft ((List.range n_aggr_dist_nodes).map
    (fun (i : ℕ) => (ops.exp (-(tilting_par * (i : ℚ))) * fjp i, (0 : ℚ))))
  let g_hat := frequency.pgf f_hat
  (List.range n_aggr_dist_nodes).map
    (fun (i : ℕ) => ops.exp (tilting_par * (i : ℚ)) *
      ((ops.ifft g_hat).getD i ((0 : ℚ), (0 : ℚ))).1)

/-- Aggregate loss distribution via FFT
(`LossModelCalculator.fast_fourier_transform`). -/
def fast_fourier_transform (severity : DiscrSev) (frequency : FrequencyModel)
    (n_aggr_dist_nodes : ℕ) (discr_step : ℚ) (tilt : Bool)
    (tilt_value : Option ℚ) (normalize : Bool) (ops : FourierOps) : AggResult :=
  aggPost (fft_g severity frequency n_aggr_dist_nodes tilt tilt_value ops)
    normalize n_aggr_dist_nodes discr_step

/-- Closed form of the value prepended by the Panjer loop at step `j`:
`vals 0 = g0` and
`vals j = Σ_{i<j} (a + b (i+1)/j) fj(i+1) vals (j-1-i)` for `j ≥ 1`. -/
def panjerVals (a b g0 : ℚ) (fj : ℕ → ℚ) : ℕ → ℚ
  | 0 => g0
  | j + 1 => ∑ i ∈ Finset.range (j + 1),
      (a + b * ((i : ℚ) + 1) / ((j : ℚ) + 1)) * fj (i + 1) *
        panjerVals a b g0 fj (j - i)
decreasing_by exact Nat.lt_succ_of_le (Nat.sub_le j i)

/-- The source's Panjer accumulation loop: after the iteration for
bucket `j` the list holds the values for buckets `j, j-1, …, 1, 0`
(each new value is prepended by `np.insert(g, 0, …)`). -/
def panjerLoop (a b g0 : ℚ) (fj : ℕ → ℚ) : ℕ → List ℚ
  | 0 => [g0]
  | j + 1 =>
    (∑ i ∈ Finset.range (j + 1),
      (a + b * ((i : ℚ) + 1) / ((j : ℚ) + 1)) * fj (i + 1) *
        (panjerLoop a b g0 fj j).getD i 0)
      :: panjerLoop a b g0 fj j

/-- The aggregate pmf of the Panjer aggregator before the optional
normalization: the loop output is reversed, corrected elementwise by
`(pmf(1) - (a+b) p0) · fj` and divided by `1 - a · fj[0]`. -/
def panjer_g (a b p0 g0 fpmf : ℚ) (fj : List ℚ) (m : ℕ) : List ℚ :=
  let fjp := padded fj
  let gloop := panjerLoop a b g0 fjp (m - 1)
  (List.range m).map (fun (k : ℕ) =>
    ((fpmf - (a + b) * p0) * fjp k + gloop.reverse.getD k 0) / (1 - a * fjp 0))

/-- Aggregate loss distribution via Panjer recursion
(`LossModelCalculator.panjer_recursion`). -/
def panjer_recursion (frequency : FrequencyModel) (severity : DiscrSev)
    (n_aggr_dist_nodes : ℕ) (discr_step : ℚ) (normalize : Bool) : AggResult :=
  let c := frequency.abp0g0 severity.fj
  aggPost
    (panjer_g c.1 c.2.1 c.2.2.1 c.2.2.2 (frequency.pmf 1) severity.fj
      n_aggr_dist_nodes)
    normalize n_aggr_dist_nodes discr_step

/-- `p0 = severity.model.cdf(deductible) if deductible > 1e-05 else 0`. -/
def mcP0 (severity : SeverityModel) (deductible : ℚ) : ℚ :=
  if 1 / 100000 < deductible then severity.cdf deductible else 0

/-- The capped severity sample of the Monte Carlo aggregator:
`nDraws` inverse-cdf draws over `Uniform(p0, 1)` from the stream seeded
with `seed`, each transformed by `min(x - deductible, cover)`. -/
def mcSvsample (severity : SeverityModel) (deductible cover : ℚ)
    (nDraws : ℕ) (ustream : ℕ → ℕ → ℚ) (seed : ℕ) : List ℚ :=
  let p0 := mcP0 severity deductible
  (List.range nDraws).map (fun i =>
    min (severity.ppf (p0 + (1 - p0) * ustream seed i) - deductible) cover)

/-- `np.split(xs, bs)` helper carrying the previous absolute boundary. -/
def npSplitAux (xs : List ℚ) : List ℕ → ℕ → List (List ℚ)
  | [], prev => [xs.drop prev]
  | b :: bs, prev => (xs.take b).drop prev :: npSplitAux xs bs b

/-- `np.split(xs, bs)` with absolute boundary indices `bs`: returns the
`bs.length + 1` consecutive slices of `xs`. -/
def npSplit (xs : List ℚ) (bs : List ℕ) : List (List ℚ) := npSplitAux xs bs 0

/-- `np.unique`: sorted distinct values. -/
def npUnique (l : List ℚ) : List ℚ := (List.insertionSort (· ≤ ·) l).dedup

/-- Modelled from the spec: `helperfunctions.ecdf` (imported as `hf.ecdf`,
not part of this source file) — the empirical cdf of `data`, evaluated at
`x` as the fraction of data points `≤ x`. -/
def ecdf (data : List ℚ) (x : ℚ) : ℚ :=
  ((data.filter (fun v => v ≤ x)).length : ℚ) / (data.length : ℚ)

/-- The vector of aggregate-loss realizations `xsim` of the Monte Carlo
aggregator: severity draws split at the cumulative claim counts
(`np.cumsum(fqsample)[:(n_sim-1)]`), each group summed. -/
def mcXsim (severity : SeverityModel) (frequency : FrequencyModel)
    (cover deductible : ℚ) (n_sim : ℕ) (random_state : ℕ)
    (ustream : ℕ → ℕ → ℚ) : List ℚ :=
  let fqsample := frequency.rvs n_sim random_state
  let svsample := mcSvsample severity deductible cover fqsample.sum ustream
    (random_state + 1)
  (npSplit svsample ((cumsumNat fqsample).take (n_sim - 1))).map List.sum

/-- Aggregate loss distribution via Monte Carlo simulation
(`LossModelCalculator.mc_simulation`). -/
def mc_simulation (severity : SeverityModel) (frequency : FrequencyModel)
    (cover deductible : ℚ) (n_sim : ℕ) (random_state : ℕ)
    (ustream : ℕ → ℕ → ℚ) : CdfNodes :=
  let xsim := mcXsim severity frequency cover deductible n_sim random_state
    ustream
  let x_ := npUnique xsim
  ⟨x_.map (ecdf xsim), x_⟩

/-- Reference splitting of a sample by a list of group sizes (used to
relate `np.split` at cumulative boundaries to per-group slices). -/
def splitCounts : List ℕ → List ℚ → List (List ℚ)
  | [], _ => []
  | c :: cs, xs => xs.take c :: splitCounts cs (xs.drop c)

/-- A concrete severity model used for closed-form evaluations: the
uniform-on-`[0,1]` cdf, zero location, identity `lev` and `ppf`, unit
normalizer. -/
def cSev : SeverityModel where
  cdf := fun x => min 1 (max 0 x)
  loc := 0
  lev := fun x => x
  den := fun _ _ => 1
  ppf := id

/-- A concrete frequency model used for closed-form evaluations. -/
def cFreq : FrequencyModel where
  pgf := id
  pmf := fun _ => 1 / 2
  rvs := fun n _ => (List.range n).map (fun i => i % 2)
  abp0g0 := fun _ => (0, 0, 1 / 2, 1 / 2)

/-- Concrete (identity) Fourier kernels used for closed-form
evaluations. -/
def cOps : FourierOps where
  fft := id
  ifft := id
  exp := fun _ => 1

/-- A concrete uniform stream used for closed-form evaluations. -/
def cU : ℕ → ℕ → ℚ := fun _ _ => 1 / 2

/-- A second concrete stream agreeing with `cU` on seed 6 only (used to
exhibit that the Monte Carlo output depends on the stream only through
the seed `random_state + 1`). -/
def cU' : ℕ → ℕ → ℚ := fun s _ => if s = 6 then 1 / 2 else 7

/-- Spec-side formulation of the FFT pipeline at an explicit tilting
parameter `theta` (the claim's wording): zero-pad, tilt by
`exp(-theta·i)`, forward transform, apply the pgf elementwise, inverse
transform, take the real part, untilt by `exp(theta·i)`, then the shared
normalize/cumsum/clip tail.  Compared against `fast_fourier_transform`
for the three ways the code selects the tilting parameter. -/
def fftSpec (severity : DiscrSev) (frequency : FrequencyModel) (m : ℕ)
    (discr_step : ℚ) (theta : ℚ) (normalize : Bool) (ops : FourierOps) : AggResult :=
  aggPost ((List.range m).map (fun (i : ℕ) => ops.exp (theta * (i : ℚ)) *
    ((ops.ifft (frequency.pgf (ops.fft ((List.range m).map
      (fun (i : ℕ) => (ops.exp (-(theta * (i : ℚ))) * padded severity.fj i, (0 : ℚ))))))).getD i
        ((0 : ℚ), (0 : ℚ))).1)) normalize m discr_step

/-! ## Helper lemmas -/

lemma list_map_range_sum (f : ℕ → ℚ) (n : ℕ) :
    ((List.range n).map f).sum = ∑ i ∈ Finset.range n, f i := rfl

lemma sum_div_telescope (F : ℕ → ℚ) (S : ℚ) (n : ℕ) :
    ∑ i ∈ Finset.range n, (F (i + 1) - F i) / S = F n / S - F 0 / S := by
  calc ∑ i ∈ Finset.range n, (F (i + 1) - F i) / S
      = ∑ i ∈ Finset.range n, (F (i + 1) / S - F i / S) :=
        Finset.sum_congr rfl (fun i _ => (div_sub_div_same _ _ _).symm)
    _ = F n / S - F 0 / S := Finset.sum_range_sub (fun i => F i / S) n

lemma mass_dispersal_sum_aligned (sev : SeverityModel) (d h : ℚ) (n : ℕ)
    (hn : 1 ≤ n) (hcdf : sev.cdf d ≠ 1) :
    (mass_dispersal sev d (some (d + n * h)) h n).fj.sum = 1 := by
  have hS : (1 : ℚ) - sev.cdf d ≠ 0 := sub_ne_zero.mpr (Ne.symm hcdf)
  simp only [mass_dispersal]
  rw [List.sum_append, List.sum_cons, list_map_range_sum]
  have hcong : ∀ i ∈ Finset.range (n - 1),
      (sev.cdf (d + ((i : ℚ) + 1 + 1/2) * h) - sev.cdf (d + ((i : ℚ) + 1/2) * h))
        / (1 - sev.cdf d)
      = (sev.cdf (d + (((i + 1 : ℕ) : ℚ) + 1/2) * h) -
          sev.cdf (d + ((i : ℚ) + 1/2) * h)) / (1 - sev.cdf d) := by
    intro i _
    have e : (((i + 1 : ℕ) : ℚ) + 1/2) = ((i : ℚ) + 1 + 1/2) := by push_cast; ring
    rw [e]
  rw [Finset.sum_congr rfl hcong,
    sum_div_telescope (fun j => sev.cdf (d + ((j : ℚ) + 1/2) * h)) (1 - sev.cdf d)
      (n - 1)]
  have e0 : d + (((0 : ℕ) : ℚ) + 1/2) * h = d + h / 2 := by push_cast; ring
  have e1 : d + (((n - 1 : ℕ) : ℚ) + 1/2) * h = d + (n : ℚ) * h - h / 2 := by
    rw [Nat.cast_sub hn]; push_cast; ring
  rw [e0, e1]
  field_simp

lemma lower_discretization_sum_aligned (sev : SeverityModel) (d h : ℚ) (n : ℕ)
    (hn : 1 ≤ n) (hcdf : sev.cdf d ≠ 1) :
    (lower_discretization sev d (some (d + n * h)) h n).fj.sum = 1 := by
  have hS : (1 : ℚ) - sev.cdf d ≠ 0 := sub_ne_zero.mpr (Ne.symm hcdf)
  simp only [lower_discretization]
  rw [List.sum_append, List.sum_cons, list_map_range_sum]
  have hcong : ∀ i ∈ Finset.range (n - 1),
      (sev.cdf (d + ((i : ℚ) + 1) * h) - sev.cdf (d + (i : ℚ) * h)) / (1 - sev.cdf d)
      = (sev.cdf (d + (((i + 1 : ℕ) : ℚ)) * h) - sev.cdf (d + (i : ℚ) * h))
          / (1 - sev.cdf d) := by
    intro i _
    have e : (((i + 1 : ℕ) : ℚ)) = ((i : ℚ) + 1) := by push_cast; ring
    rw [e]
  rw [Finset.sum_congr rfl hcong,
    sum_div_telescope (fun j => sev.cdf (d + (j : ℚ) * h)) (1 - sev.cdf d) (n - 1)]
  have e0 : d + ((0 : ℕ) : ℚ) * h = d := by push_cast; ring
  have e1 : d + ((n - 1 : ℕ) : ℚ) * h = d + (n : ℚ) * h - h := by
    rw [Nat.cast_sub hn]; push_cast; ring
  rw [e0, e1]
  field_simp

lemma upper_discretization_sum_aligned (sev : SeverityModel) (d h : ℚ) (n : ℕ)
    (hcdf : sev.cdf d ≠ 1) :
    (upper_discretization sev d (some (d + n * h)) h n).fj.sum = 1 := by
  have hS : (1 : ℚ) - sev.cdf d ≠ 0 := sub_ne_zero.mpr (Ne.symm hcdf)
  simp only [upper_discretization]
  rw [List.sum_append, list_map_range_sum]
  have hcong : ∀ i ∈ Finset.range n,
      (sev.cdf (d + ((i : ℚ) + 1) * h) - sev.cdf (d + (i : ℚ) * h)) / (1 - sev.cdf d)
      = (sev.cdf (d + (((i + 1 : ℕ) : ℚ)) * h) - sev.cdf (d + (i : ℚ) * h))
          / (1 - sev.cdf d) := by
    intro i _
    have e : (((i + 1 : ℕ) : ℚ)) = ((i : ℚ) + 1) := by push_cast; ring
    rw [e]
  rw [Finset.sum_congr rfl hcong,
    sum_div_telescope (fun j => sev.cdf (d + (j : ℚ) * h)) (1 - sev.cdf d) n]
  have e0 : d + ((0 : ℕ) : ℚ) * h = d := by push_cast; ring
  rw [e0]
  field_simp

lemma local_moments_sum_aligned (sev : SeverityModel) (d h : ℚ) (n : ℕ)
    (hn : 1 ≤ n) :
    (local_moments sev d (some (d + n * h)) h n).fj.sum = 1 := by
  simp only [local_moments, upper_discr_point_prob_adjuster]
  rw [List.sum_append, List.sum_cons, List.map_map, list_map_range_sum]
  have hcong : ∀ i ∈ Finset.range (n - 1),
      ((fun x => x / (h * sev.den d sev.loc)) ∘ fun (k : ℕ) =>
        2 * sev.lev (d - sev.loc + ((k : ℚ) + 1) * h) -
          sev.lev (d - sev.loc + (k : ℚ) * h) -
          sev.lev (d - sev.loc + ((k : ℚ) + 2) * h)) i
      = ((fun j => (sev.lev (d - sev.loc + (((j + 1 : ℕ)) : ℚ) * h) -
            sev.lev (d - sev.loc + (j : ℚ) * h)) / (h * sev.den d sev.loc)) i -
         (fun j => (sev.lev (d - sev.loc + (((j + 1 : ℕ)) : ℚ) * h) -
            sev.lev (d - sev.loc + (j : ℚ) * h)) / (h * sev.den d sev.loc)) (i + 1)) := by
    intro i _
    simp only [Function.comp_apply]
    rw [div_sub_div_same]
    congr 1
    push_cast
    ring_nf
  rw [Finset.sum_congr rfl hcong, Finset.sum_range_sub'
    (fun j => (sev.lev (d - sev.loc + (((j + 1 : ℕ)) : ℚ) * h) -
      sev.lev (d - sev.loc + (j : ℚ) * h)) / (h * sev.den d sev.loc)) (n - 1)]
  have e0 : d - sev.loc + (((0 + 1 : ℕ)) : ℚ) * h = d + h - sev.loc := by
    push_cast; ring
  have e0' : d - sev.loc + ((0 : ℕ) : ℚ) * h = d - sev.loc := by
    norm_num
  have en : d - sev.loc + (((n - 1 + 1 : ℕ)) : ℚ) * h = d + (n : ℚ) * h - sev.loc := by
    rw [Nat.sub_add_cancel hn]; ring
  have en1 : d - sev.loc + ((n - 1 : ℕ) : ℚ) * h = d + (n : ℚ) * h - sev.loc - h := by
    rw [Nat.cast_sub hn]; push_cast; ring
  rw [e0, e0', en, en1, List.sum_singleton]
  ring

/-! ## Claims -/

/-- C1 (amended): for every well-formed input (`n ≥ 1`),
`mass_dispersal`, `lower_discretization` and `local_moments` return
`nodes` and `fj` of equal length — `n + 1` when the exit point is finite
and `n` when it is infinite — and the adjuster returns a singleton for a
finite exit point and an empty array for an infinite one; but
`upper_discretization` extends only `fj` when the exit point is finite:
its `nodes` always has length `n`, so its `nodes` and `fj` lengths
differ for finite exit points. -/
theorem claim_C1_amended (sev : SeverityModel) (d : ℚ) (u : Option ℚ)
    (h : ℚ) (n : ℕ) (hn : 1 ≤ n) :
    ((mass_dispersal sev d u h n).nodes.length = if u.isSome then n + 1 else n) ∧
    ((mass_dispersal sev d u h n).fj.length = if u.isSome then n + 1 else n) ∧
    ((lower_discretization sev d u h n).nodes.length = if u.isSome then n + 1 else n) ∧
    ((lower_discretization sev d u h n).fj.length = if u.isSome then n + 1 else n) ∧
    ((local_moments sev d u h n).nodes.length = if u.isSome then n + 1 else n) ∧
    ((local_moments sev d u h n).fj.length = if u.isSome then n + 1 else n) ∧
    ((upper_discretization sev d u h n).nodes.length = n) ∧
    ((upper_discretization sev d u h n).fj.length = if u.isSome then n + 1 else n) ∧
    ((upper_discr_point_prob_adjuster sev d u h).length = if u.isSome then 1 else 0) := by
  cases u <;>
    simp [mass_dispersal, lower_discretization, local_moments,
      upper_discretization, upper_discr_point_prob_adjuster] <;>
    omega

/-- C1 (counterexample): at a concrete finite exit point,
`upper_discretization` returns `nodes` of length `n` and `fj` of length
`n + 1`, refuting the claim that all four methods return `nodes` and
`fj` of equal length `n + 1`. -/
theorem claim_C1_counterexample :
    (upper_discretization cSev 0 (some 1) 1 1).nodes.length = 1 ∧
    (upper_discretization cSev 0 (some 1) 1 1).fj.length = 2 := by
  constructor <;> rfl

/-- C1 (witness): the amended claim instantiated at a concrete input. -/
theorem claim_C1_witness :
    ((mass_dispersal cSev 0 (some 1) 1 1).nodes.length =
      if (some (1 : ℚ)).isSome then 1 + 1 else 1) ∧
    ((mass_dispersal cSev 0 (some 1) 1 1).fj.length =
      if (some (1 : ℚ)).isSome then 1 + 1 else 1) ∧
    ((lower_discretization cSev 0 (some 1) 1 1).nodes.length =
      if (some (1 : ℚ)).isSome then 1 + 1 else 1) ∧
    ((lower_discretization cSev 0 (some 1) 1 1).fj.length =
      if (some (1 : ℚ)).isSome then 1 + 1 else 1) ∧
    ((local_moments cSev 0 (some 1) 1 1).nodes.length =
      if (some (1 : ℚ)).isSome then 1 + 1 else 1) ∧
    ((local_moments cSev 0 (some 1) 1 1).fj.length =
      if (some (1 : ℚ)).isSome then 1 + 1 else 1) ∧
    ((upper_discretization cSev 0 (some 1) 1 1).nodes.length = 1) ∧
    ((upper_discretization cSev 0 (some 1) 1 1).fj.length =
      if (some (1 : ℚ)).isSome then 1 + 1 else 1) ∧
    ((upper_discr_point_prob_adjuster cSev 0 (some 1) 1).length =
      if (some (1 : ℚ)).isSome then 1 else 0) :=
  claim_C1_amended cSev 0 (some 1) 1 1 (by norm_num)

/-- C4 (amended): when the finite exit point is aligned with the grid
(`u = d + n·h`, the intended relation `exit point = deductible + cover`
with `cover = n·h`) and the truncation is non-degenerate
(`cdf(d) ≠ 1`), the discretized probabilities of all four methods sum
to exactly 1 (hence within `PROB_TOLERANCE` of 1); with an infinite (or
non-aligned) exit point the sum can fall short of 1 by more than
`PROB_TOLERANCE`. -/
theorem claim_C4_amended (sev : SeverityModel) (d h : ℚ) (n : ℕ)
    (hn : 1 ≤ n) (hcdf : sev.cdf d ≠ 1) :
    (mass_dispersal sev d (some (d + n * h)) h n).fj.sum = 1 ∧
    (lower_discretization sev d (some (d + n * h)) h n).fj.sum = 1 ∧
    (upper_discretization sev d (some (d + n * h)) h n).fj.sum = 1 ∧
    (local_moments sev d (some (d + n * h)) h n).fj.sum = 1 :=
  ⟨mass_dispersal_sum_aligned sev d h n hn hcdf,
   lower_discretization_sum_aligned sev d h n hn hcdf,
   upper_discretization_sum_aligned sev d h n hcdf,
   local_moments_sum_aligned sev d h n hn⟩

/-- C4 (counterexample): with an infinite exit point (allowed by the
claim's quantification over every exit point) and a small node count,
`mass_dispersal` returns probabilities summing to `1/2`, which falls
short of 1 by more than `PROB_TOLERANCE`. -/
theorem claim_C4_counterexample :
    PROB_TOLERANCE < 1 - (mass_dispersal cSev 0 none 1 1).fj.sum := by
  norm_num [mass_dispersal, cSev, PROB_TOLERANCE]

/-- C4 (witness): the amended claim instantiated at a concrete input. -/
theorem claim_C4_witness :
    (mass_dispersal cSev 0 (some (0 + (2 : ℕ) * (1 / 2))) (1 / 2) 2).fj.sum = 1 ∧
    (lower_discretization cSev 0 (some (0 + (2 : ℕ) * (1 / 2))) (1 / 2) 2).fj.sum = 1 ∧
    (upper_discretization cSev 0 (some (0 + (2 : ℕ) * (1 / 2))) (1 / 2) 2).fj.sum = 1 ∧
    (local_moments cSev 0 (some (0 + (2 : ℕ) * (1 / 2))) (1 / 2) 2).fj.sum = 1 :=
  claim_C4_amended cSev 0 (1 / 2) 2 (by norm_num) (by norm_num [cSev])

lemma panjerLoop_length (a b g0 : ℚ) (fj : ℕ → ℚ) (j : ℕ) :
    (panjerLoop a b g0 fj j).length = j + 1 := by
  induction j with
  | zero => rfl
  | succ j ih => simp [panjerLoop, ih]

lemma panjerLoop_getD (a b g0 : ℚ) (fj : ℕ → ℚ) :
    ∀ j k, k ≤ j →
      (panjerLoop a b g0 fj j).getD k 0 = panjerVals a b g0 fj (j - k) := by
  intro j
  induction j with
  | zero =>
    intro k hk
    interval_cases k
    simp [panjerLoop, panjerVals]
  | succ j ih =>
    intro k hk
    cases k with
    | zero =>
      simp only [panjerLoop, List.getD_cons_zero, Nat.sub_zero]
      rw [panjerVals]
      refine Finset.sum_congr rfl ?_
      intro i hi
      rw [ih i (Nat.lt_succ_iff.mp (Finset.mem_range.mp hi))]
    | succ k =>
      simp only [panjerLoop, List.getD_cons_succ]
      rw [ih k (Nat.succ_le_succ_iff.mp hk), Nat.succ_sub_succ]

lemma panjerLoop_reverse_getD (a b g0 : ℚ) (fj : ℕ → ℚ) (j k : ℕ) (hk : k ≤ j) :
    (panjerLoop a b g0 fj j).reverse.getD k 0 = panjerVals a b g0 fj k := by
  have hlen : (panjerLoop a b g0 fj j).length = j + 1 := panjerLoop_length a b g0 fj j
  have hklt : k < (panjerLoop a b g0 fj j).length := by omega
  rw [List.getD_eq_getElem?_getD, List.getElem?_reverse (by simpa using hklt),
    ← List.getD_eq_getElem?_getD, hlen]
  have e : j + 1 - 1 - k = j - k := by omega
  rw [e, panjerLoop_getD a b g0 fj j (j - k) (Nat.sub_le j k)]
  congr 1
  omega

/-- C3: `panjer_recursion` computes the aggregate pmf by iterating over
bucket indices in increasing order — the value for bucket `j ≥ 1`
satisfies the Panjer identity
`g[j] = Σ_{i=1}^{j} (a + b·i/j)·fj[i]·g[j-i]` with `(a, b, p0, g0)`
obtained from the frequency model; the returned pmf combines the
reversed accumulated sequence with the `(pmf(1) - (a+b)·p0)·fj`
correction divided by `1 - a·fj[0]`, and the returned cdf is the
cumulative sum of the (optionally normalized) pmf clipped at 1, over
nodes `discr_step·j`. -/
theorem claim_C3 (frequency : FrequencyModel) (severity : DiscrSev)
    (m : ℕ) (h : ℚ) (normalize : Bool) (a b p0 g0 : ℚ)
    (hm : 1 ≤ m) (hc : frequency.abp0g0 severity.fj = (a, b, p0, g0)) :
    (∀ j, 1 ≤ j → panjerVals a b g0 (padded severity.fj) j =
      ∑ i ∈ Finset.Icc 1 j, (a + b * (i : ℚ) / (j : ℚ)) * padded severity.fj i *
        panjerVals a b g0 (padded severity.fj) (j - i)) ∧
    (panjer_recursion frequency severity m h normalize).cdf =
      (cumsum (normIf normalize ((List.range m).map (fun (k : ℕ) =>
        ((frequency.pmf 1 - (a + b) * p0) * padded severity.fj k +
          panjerVals a b g0 (padded severity.fj) k) / (1 - a * padded severity.fj 0))))).map
        (fun x => min x 1) ∧
    (panjer_recursion frequency severity m h normalize).nodes = gridNodes m h := by
  have hg : panjer_g a b p0 g0 (frequency.pmf 1) severity.fj m =
      (List.range m).map (fun (k : ℕ) =>
        ((frequency.pmf 1 - (a + b) * p0) * padded severity.fj k +
          panjerVals a b g0 (padded severity.fj) k) / (1 - a * padded severity.fj 0)) := by
    simp only [panjer_g]
    refine List.map_congr_left ?_
    intro k hk
    have hk' : k ≤ m - 1 := by
      have := List.mem_range.mp hk; omega
    rw [panjerLoop_reverse_getD a b g0 (padded severity.fj) (m - 1) k hk']
  refine ⟨?_, ?_, ?_⟩
  · intro j hj
    obtain ⟨j', rfl⟩ : ∃ j', j = j' + 1 := ⟨j - 1, by omega⟩
    rw [panjerVals, ← Nat.Ico_succ_right, Finset.sum_Ico_eq_sum_range]
    refine Finset.sum_congr (by norm_num) ?_
    intro i _
    have e1 : ((1 + i : ℕ) : ℚ) = (i : ℚ) + 1 := by push_cast; ring
    have e2 : j' + 1 - (1 + i) = j' - i := by omega
    rw [e1, e2]
    push_cast
    ring_nf
  · simp only [panjer_recursion, hc, aggPost]
    rw [hg]
  · simp only [panjer_recursion, hc, aggPost, gridNodes]

/-- C3 (witness): the characterization instantiated at a concrete
frequency model and severity. -/
theorem claim_C3_witness :
    (∀ j, 1 ≤ j → panjerVals 0 0 (1/2) (padded [1/2, 1/2]) j =
      ∑ i ∈ Finset.Icc 1 j, (0 + 0 * (i : ℚ) / (j : ℚ)) * padded [1/2, 1/2] i *
        panjerVals 0 0 (1/2) (padded [1/2, 1/2]) (j - i)) ∧
    (panjer_recursion cFreq ⟨[0, 1], [1/2, 1/2]⟩ 2 1 false).cdf =
      (cumsum (normIf false ((List.range 2).map (fun (k : ℕ) =>
        ((cFreq.pmf 1 - (0 + 0) * (1/2)) * padded [1/2, 1/2] k +
          panjerVals 0 0 (1/2) (padded [1/2, 1/2]) k) / (1 - 0 * padded [1/2, 1/2] 0))))).map
        (fun x => min x 1) ∧
    (panjer_recursion cFreq ⟨[0, 1], [1/2, 1/2]⟩ 2 1 false).nodes = gridNodes 2 1 :=
  claim_C3 cFreq ⟨[0, 1], [1/2, 1/2]⟩ 2 1 false 0 0 (1/2) (1/2) (by norm_num) rfl

lemma cumsumFrom_bounds (g : List ℚ) : ∀ acc : ℚ, (∀ x ∈ g, 0 ≤ x) →
    List.Chain' (· ≤ ·) (cumsumFrom acc g) ∧ ∀ y ∈ cumsumFrom acc g, acc ≤ y := by
  induction g with
  | nil => intro acc _; simp [cumsumFrom]
  | cons x xs ih =>
    intro acc hg
    have hx : 0 ≤ x := hg x (List.mem_cons_self x xs)
    obtain ⟨hc, hge⟩ := ih (acc + x) (fun y hy => hg y (List.mem_cons_of_mem x hy))
    refine ⟨?_, ?_⟩
    · refine List.chain'_cons'.mpr ⟨?_, hc⟩
      intro y hy
      exact hge y (List.mem_of_mem_head? hy)
    · intro y hy
      rcases List.mem_cons.mp hy with hy | hy
      · subst hy; linarith
      · have := hge y hy; linarith

lemma chain'_map_min_one {l : List ℚ} (hl : List.Chain' (· ≤ ·) l) :
    List.Chain' (· ≤ ·) (l.map (fun x => min x 1)) := by
  rw [List.chain'_map]
  exact hl.imp (fun _ _ hab => min_le_min hab (le_refl 1))

lemma aggPost_cdf_props (g : List ℚ) (normalize : Bool) (m : ℕ) (h : ℚ)
    (hg : ∀ x ∈ normIf normalize g, 0 ≤ x) :
    List.Sorted (· ≤ ·) (aggPost g normalize m h).cdf ∧
    ∀ y ∈ (aggPost g normalize m h).cdf, 0 ≤ y ∧ y ≤ 1 := by
  obtain ⟨hc, hge⟩ := cumsumFrom_bounds (normIf normalize g) 0 hg
  constructor
  · exact List.chain'_iff_pairwise.mp (chain'_map_min_one hc)
  · intro y hy
    obtain ⟨x, hx, rfl⟩ := List.mem_map.mp hy
    exact ⟨le_min (hge x hx) zero_le_one, min_le_right x 1⟩

lemma ecdf_nonneg (data : List ℚ) (x : ℚ) : 0 ≤ ecdf data x :=
  div_nonneg (Nat.cast_nonneg _) (Nat.cast_nonneg _)

lemma ecdf_le_one (data : List ℚ) (x : ℚ) : ecdf data x ≤ 1 :=
  div_le_one_of_le₀ (Nat.cast_le.mpr (List.length_filter_le _ _)) (Nat.cast_nonneg _)

lemma ecdf_mono (data : List ℚ) {x y : ℚ} (hxy : x ≤ y) :
    ecdf data x ≤ ecdf data y := by
  rcases eq_or_ne data [] with rfl | hne
  · simp [ecdf]
  · have hpos : (0 : ℚ) < data.length := by
      have := List.length_pos.mpr hne
      exact_mod_cast this
    apply (div_le_div_iff_of_pos_right hpos).mpr
    apply Nat.cast_le.mpr
    apply List.Sublist.length_le
    apply List.monotone_filter_right
    intro a ha
    simp only [decide_eq_true_eq] at ha ⊢
    exact le_trans ha hxy

lemma npUnique_sorted (l : List ℚ) : List.Sorted (· ≤ ·) (npUnique l) :=
  List.Pairwise.sublist (List.dedup_sublist _) (List.sorted_insertionSort _ l)

/-- C2: for every aggregation operation, the returned cdf sequence is
monotone non-decreasing with every entry in `[0, 1]`.  For the FFT and
Panjer aggregators the well-formedness of the input is captured by the
hypothesis that the computed aggregate pmf (entirely determined by the
abstract external kernels `fft`/`ifft`/`pgf`/`abp0g0`) is entrywise
nonnegative — the mathematical consequence of these capabilities
behaving as genuine probability objects; for the Monte Carlo aggregator
the property is unconditional. -/
theorem claim_C2 :
    (∀ (severity : DiscrSev) (frequency : FrequencyModel) (m : ℕ) (h : ℚ)
      (tilt : Bool) (tilt_value : Option ℚ) (normalize : Bool) (ops : FourierOps),
      (∀ x ∈ normIf normalize (fft_g severity frequency m tilt tilt_value ops), 0 ≤ x) →
      List.Sorted (· ≤ ·)
        (fast_fourier_transform severity frequency m h tilt tilt_value normalize ops).cdf ∧
      ∀ y ∈ (fast_fourier_transform severity frequency m h tilt tilt_value normalize ops).cdf,
        0 ≤ y ∧ y ≤ 1) ∧
    (∀ (frequency : FrequencyModel) (severity : DiscrSev) (m : ℕ) (h : ℚ)
      (normalize : Bool),
      (∀ x ∈ normIf normalize (panjer_g (frequency.abp0g0 severity.fj).1
        (frequency.abp0g0 severity.fj).2.1 (frequency.abp0g0 severity.fj).2.2.1
        (frequency.abp0g0 severity.fj).2.2.2 (frequency.pmf 1) severity.fj m), 0 ≤ x) →
      List.Sorted (· ≤ ·) (panjer_recursion frequency severity m h normalize).cdf ∧
      ∀ y ∈ (panjer_recursion frequency severity m h normalize).cdf, 0 ≤ y ∧ y ≤ 1) ∧
    (∀ (severity : SeverityModel) (frequency : FrequencyModel) (cover deductible : ℚ)
      (n_sim random_state : ℕ) (ustream : ℕ → ℕ → ℚ),
      List.Sorted (· ≤ ·)
        (mc_simulation severity frequency cover deductible n_sim random_state ustream).cdf ∧
      ∀ y ∈ (mc_simulation severity frequency cover deductible n_sim random_state ustream).cdf,
        0 ≤ y ∧ y ≤ 1) := by
  refine ⟨?_, ?_, ?_⟩
  · intro severity frequency m h tilt tilt_value normalize ops hx
    simp only [fast_fourier_transform]
    exact aggPost_cdf_props _ _ _ _ hx
  · intro frequency severity m h normalize hx
    simp only [panjer_recursion]
    exact aggPost_cdf_props _ _ _ _ hx
  · intro severity frequency cover deductible n_sim random_state ustream
    simp only [mc_simulation]
    constructor
    · exact List.Pairwise.map _ (fun _ _ hab => ecdf_mono _ hab) (npUnique_sorted _)
    · intro y hy
      obtain ⟨x, _, rfl⟩ := List.mem_map.mp hy
      exact ⟨ecdf_nonneg _ _, ecdf_le_one _ _⟩

/-- C2 (witness): the three cdf invariants instantiated at concrete
inputs, with the nonnegativity hypotheses discharged by evaluation. -/
theorem claim_C2_witness :
    (List.Sorted (· ≤ ·)
      (fast_fourier_transform ⟨[0], [1/2]⟩ cFreq 1 1 false none false cOps).cdf ∧
     ∀ y ∈ (fast_fourier_transform ⟨[0], [1/2]⟩ cFreq 1 1 false none false cOps).cdf,
       0 ≤ y ∧ y ≤ 1) ∧
    (List.Sorted (· ≤ ·) (panjer_recursion cFreq ⟨[0, 1], [1/2, 1/2]⟩ 2 1 false).cdf ∧
     ∀ y ∈ (panjer_recursion cFreq ⟨[0, 1], [1/2, 1/2]⟩ 2 1 false).cdf,
       0 ≤ y ∧ y ≤ 1) ∧
    (List.Sorted (· ≤ ·) (mc_simulation cSev cFreq 10 0 2 5 cU).cdf ∧
     ∀ y ∈ (mc_simulation cSev cFreq 10 0 2 5 cU).cdf, 0 ≤ y ∧ y ≤ 1) :=
  ⟨claim_C2.1 ⟨[0], [1/2]⟩ cFreq 1 1 false none false cOps
      (by norm_num [fft_g, normIf, padded, cFreq, cOps]),
   claim_C2.2.1 cFreq ⟨[0, 1], [1/2, 1/2]⟩ 2 1 false
      (by
        norm_num [panjer_g, panjerLoop, padded, normIf, cFreq,
          Finset.sum_range_succ, Finset.sum_range_zero]
        intro a ha
        interval_cases a <;> norm_num),
   claim_C2.2.2 cSev cFreq 10 0 2 5 cU⟩

/-- C5: `fast_fourier_transform` computes the pipeline
`exp(θ·i) · Re(ifft(pgf(fft(exp(-θ·i)·fj))))` (with `fj` zero-padded to
length `m`) followed by the optional normalization and the clipped
cumulative sum, where `θ` is the given `tilt_value` when tilting is
requested with an explicit value, `20/m` when tilting is requested with
no explicit value, and `0` when tilting is not requested. -/
theorem claim_C5 (severity : DiscrSev) (frequency : FrequencyModel) (m : ℕ)
    (discr_step : ℚ) (tilt : Bool) (tilt_value : Option ℚ) (normalize : Bool)
    (ops : FourierOps) :
    (∀ v, tilt = true → tilt_value = some v →
      fast_fourier_transform severity frequency m discr_step tilt tilt_value normalize ops =
        fftSpec severity frequency m discr_step v normalize ops) ∧
    (tilt = true → tilt_value = none →
      fast_fourier_transform severity frequency m discr_step tilt tilt_value normalize ops =
        fftSpec severity frequency m discr_step (20 / (m : ℚ)) normalize ops) ∧
    (tilt = false →
      fast_fourier_transform severity frequency m discr_step tilt tilt_value normalize ops =
        fftSpec severity frequency m discr_step 0 normalize ops) := by
  refine ⟨?_, ?_, ?_⟩
  · rintro v rfl rfl; rfl
  · rintro rfl rfl; rfl
  · rintro rfl; rfl

/-- C5 (witness): the three tilting-parameter cases exercised on
concrete inputs. -/
theorem claim_C5_witness :
    (fast_fourier_transform ⟨[0], [1/2]⟩ cFreq 1 1 true (some 3) false cOps =
      fftSpec ⟨[0], [1/2]⟩ cFreq 1 1 3 false cOps) ∧
    (fast_fourier_transform ⟨[0], [1/2]⟩ cFreq 1 1 true none false cOps =
      fftSpec ⟨[0], [1/2]⟩ cFreq 1 1 (20 / ((1 : ℕ) : ℚ)) false cOps) ∧
    (fast_fourier_transform ⟨[0], [1/2]⟩ cFreq 1 1 false none false cOps =
      fftSpec ⟨[0], [1/2]⟩ cFreq 1 1 0 false cOps) :=
  ⟨(claim_C5 ⟨[0], [1/2]⟩ cFreq 1 1 true (some 3) false cOps).1 3 rfl rfl,
   (claim_C5 ⟨[0], [1/2]⟩ cFreq 1 1 true none false cOps).2.1 rfl rfl,
   (claim_C5 ⟨[0], [1/2]⟩ cFreq 1 1 false none false cOps).2.2 rfl⟩

/-- C6: for `fast_fourier_transform` and `panjer_recursion`, the
warning diagnostic is emitted, carrying the computed last cumulative
probability, exactly when that probability falls short of 1 by more
than `PROB_TOLERANCE`; no warning is emitted when the shortfall is
within `PROB_TOLERANCE`; and the `{cdf, nodes}` result is returned in
every case (the functions are total and the node grid is always
produced — no numerical shortfall raises an exception). -/
theorem claim_C6 (severity : DiscrSev) (frequency : FrequencyModel)
    (m : ℕ) (h : ℚ) (tilt : Bool) (tilt_value : Option ℚ) (normalize : Bool)
    (ops : FourierOps) :
    ((fast_fourier_transform severity frequency m h tilt tilt_value normalize ops).warn =
      if PROB_TOLERANCE <
          1 - lastD (fast_fourier_transform severity frequency m h tilt tilt_value normalize ops).cdf
      then some (lastD (fast_fourier_transform severity frequency m h tilt tilt_value normalize ops).cdf)
      else none) ∧
    ((fast_fourier_transform severity frequency m h tilt tilt_value normalize ops).warn = none ↔
      1 - lastD (fast_fourier_transform severity frequency m h tilt tilt_value normalize ops).cdf ≤
        PROB_TOLERANCE) ∧
    ((fast_fourier_transform severity frequency m h tilt tilt_value normalize ops).nodes =
      gridNodes m h) ∧
    ((panjer_recursion frequency severity m h normalize).warn =
      if PROB_TOLERANCE < 1 - lastD (panjer_recursion frequency severity m h normalize).cdf
      then some (lastD (panjer_recursion frequency severity m h normalize).cdf)
      else none) ∧
    ((panjer_recursion frequency severity m h normalize).warn = none ↔
      1 - lastD (panjer_recursion frequency severity m h normalize).cdf ≤ PROB_TOLERANCE) ∧
    ((panjer_recursion frequency severity m h normalize).nodes = gridNodes m h) := by
  refine ⟨rfl, ?_, rfl, rfl, ?_, rfl⟩
  · simp only [fast_fourier_transform, aggPost]
    split_ifs with hc
    · exact iff_of_false (by simp) (not_le.mpr hc)
    · exact iff_of_true rfl (le_of_not_lt hc)
  · simp only [panjer_recursion, aggPost]
    split_ifs with hc
    · exact iff_of_false (by simp) (not_le.mpr hc)
    · exact iff_of_true rfl (le_of_not_lt hc)

/-- C7: `mc_simulation` is deterministic in its seed — its output is
fully determined by the claim counts sampled at `(n_sim, random_state)`
and the uniform stream at seed `random_state + 1`: any two frequency
models and streams agreeing there (in particular, identical inputs)
produce identical `{cdf, nodes}`. -/
theorem claim_C7 (severity : SeverityModel) (frequency frequency' : FrequencyModel)
    (cover deductible : ℚ) (n_sim random_state : ℕ) (ustream ustream' : ℕ → ℕ → ℚ)
    (hrvs : frequency.rvs n_sim random_state = frequency'.rvs n_sim random_state)
    (hu : ∀ i, ustream (random_state + 1) i = ustream' (random_state + 1) i) :
    mc_simulation severity frequency cover deductible n_sim random_state ustream =
    mc_simulation severity frequency' cover deductible n_sim random_state ustream' := by
  have hsv : ∀ N, mcSvsample severity deductible cover N ustream (random_state + 1) =
      mcSvsample severity deductible cover N ustream' (random_state + 1) := by
    intro N
    simp only [mcSvsample]
    exact List.map_congr_left (fun i _ => by rw [hu i])
  simp only [mc_simulation, mcXsim, ← hrvs, hsv]

/-- C7 (witness): two runs with streams that agree on seed 6 (but
nowhere else) reproduce the same output for `random_state = 5`. -/
theorem claim_C7_witness :
    mc_simulation cSev cFreq 10 0 2 5 cU = mc_simulation cSev cFreq 10 0 2 5 cU' :=
  claim_C7 cSev cFreq cFreq 10 0 2 5 cU cU' rfl (fun i => by norm_num [cU, cU'])

/-- C8: in `mc_simulation`, the truncation probability `p0` equals the
severity cdf at the deductible when the deductible exceeds `1e-5` and 0
otherwise; the number of severity draws equals the sum of the simulated
claim counts; and each draw is the inverse cdf applied to a
`Uniform(p0, 1)` variate, transformed by `min(x - deductible, cover)`. -/
theorem claim_C8 (severity : SeverityModel) (frequency : FrequencyModel)
    (cover deductible : ℚ) (n_sim random_state : ℕ) (ustream : ℕ → ℕ → ℚ) :
    mcP0 severity deductible =
      (if 1 / 100000 < deductible then severity.cdf deductible else 0) ∧
    (mcSvsample severity deductible cover (frequency.rvs n_sim random_state).sum
        ustream (random_state + 1)).length = (frequency.rvs n_sim random_state).sum ∧
    ∀ i < (frequency.rvs n_sim random_state).sum,
      (mcSvsample severity deductible cover (frequency.rvs n_sim random_state).sum
        ustream (random_state + 1)).getD i 0 =
      min (severity.ppf (mcP0 severity deductible +
        (1 - mcP0 severity deductible) * ustream (random_state + 1) i) - deductible)
        cover := by
  refine ⟨rfl, by simp [mcSvsample], ?_⟩
  intro i hi
  simp [mcSvsample, List.getD_eq_getElem?_getD, List.getElem?_map,
    List.getElem?_range hi]

/-- C8 (witness): the sampling-stage description instantiated at a
concrete input (draw index 0). -/
theorem claim_C8_witness :
    mcP0 cSev 0 = (if 1 / 100000 < (0 : ℚ) then cSev.cdf 0 else 0) ∧
    (mcSvsample cSev 0 10 (cFreq.rvs 2 5).sum cU 6).length = (cFreq.rvs 2 5).sum ∧
    (mcSvsample cSev 0 10 (cFreq.rvs 2 5).sum cU 6).getD 0 0 =
      min (cSev.ppf (mcP0 cSev 0 + (1 - mcP0 cSev 0) * cU 6 0) - 0) 10 :=
  ⟨(claim_C8 cSev cFreq 10 0 2 5 cU).1,
   (claim_C8 cSev cFreq 10 0 2 5 cU).2.1,
   (claim_C8 cSev cFreq 10 0 2 5 cU).2.2 0 (by norm_num [cFreq, List.range_succ])⟩

lemma cumsumNatFrom_shift (l : List ℕ) : ∀ acc : ℕ,
    cumsumNatFrom acc l = (cumsumNatFrom 0 l).map (acc + ·) := by
  induction l with
  | nil => intro acc; rfl
  | cons x xs ih =>
    intro acc
    simp only [cumsumNatFrom]
    rw [ih (acc + x), ih (0 + x)]
    simp [List.map_map, Function.comp, Nat.add_assoc]

lemma cumsumNat_cons (c : ℕ) (cs : List ℕ) :
    cumsumNat (c :: cs) = c :: (cumsumNat cs).map (c + ·) := by
  simp only [cumsumNat, cumsumNatFrom, Nat.zero_add]
  rw [cumsumNatFrom_shift]

lemma npSplitAux_shift (xs : List ℚ) (c : ℕ) : ∀ (bs : List ℕ) (p : ℕ),
    npSplitAux xs (bs.map (c + ·)) (c + p) = npSplitAux (xs.drop c) bs p := by
  intro bs
  induction bs with
  | nil =>
    intro p
    simp only [List.map_nil, npSplitAux, List.drop_drop]
  | cons b bs ih =>
    intro p
    simp only [List.map_cons, npSplitAux]
    rw [ih b]
    congr 1
    rw [List.drop_take, List.drop_take, List.drop_drop]
    congr 1
    omega

lemma npSplit_cumsum_eq_splitCounts : ∀ (counts : List ℕ) (xs : List ℚ),
    counts ≠ [] → xs.length = counts.sum →
    npSplit xs ((cumsumNat counts).take (counts.length - 1)) = splitCounts counts xs := by
  intro counts
  induction counts with
  | nil => intro xs hne _; exact absurd rfl hne
  | cons c cs ih =>
    intro xs _ hlen
    cases cs with
    | nil =>
      simp only [List.length_cons, List.length_nil, Nat.zero_add, Nat.sub_self,
        List.take_zero, npSplit, npSplitAux, List.drop_zero, splitCounts]
      simp only [List.sum_cons, List.sum_nil, Nat.add_zero] at hlen
      rw [List.take_of_length_le (le_of_eq hlen)]
    | cons c2 cs2 =>
      rw [cumsumNat_cons]
      have hl : (c :: c2 :: cs2).length - 1 = cs2.length + 1 := rfl
      rw [hl, List.take_succ_cons, ← List.map_take]
      have hsplit : npSplit xs (c :: ((cumsumNat (c2 :: cs2)).take cs2.length).map (c + ·)) =
          xs.take c :: npSplit (xs.drop c) ((cumsumNat (c2 :: cs2)).take cs2.length) := by
        simp only [npSplit, npSplitAux, List.drop_zero]
        congr 1
        simpa using npSplitAux_shift xs c ((cumsumNat (c2 :: cs2)).take cs2.length) 0
      rw [hsplit]
      have hlen2 : (xs.drop c).length = (c2 :: cs2).sum := by
        simp only [List.length_drop]
        simp only [List.sum_cons] at hlen ⊢
        omega
      have hcs : (c2 :: cs2).length - 1 = cs2.length := rfl
      rw [← hcs, ih (xs.drop c) (List.cons_ne_nil c2 cs2) hlen2]
      rfl

lemma splitCounts_length : ∀ (counts : List ℕ) (xs : List ℚ),
    (splitCounts counts xs).length = counts.length := by
  intro counts
  induction counts with
  | nil => intro xs; rfl
  | cons c cs ih => intro xs; simp [splitCounts, ih]

lemma splitCounts_zero_group : ∀ (counts : List ℕ) (xs : List ℚ) (i : ℕ),
    i < counts.length → counts.getD i 0 = 0 →
    (splitCounts counts xs).getD i [] = [] := by
  intro counts
  induction counts with
  | nil => intro xs i hi _; simp at hi
  | cons c cs ih =>
    intro xs i hi hz
    cases i with
    | zero =>
      simp only [List.getD_cons_zero] at hz
      simp [splitCounts, hz]
    | succ i =>
      simp only [List.getD_cons_succ] at hz
      simp only [splitCounts, List.getD_cons_succ]
      exact ih (xs.drop c) i (by simpa using hi) hz

lemma getD_map_sum (l : List (List ℚ)) (i : ℕ) (hi : i < l.length) :
    (l.map List.sum).getD i 0 = (l.getD i []).sum := by
  simp [List.getD_eq_getElem?_getD, List.getElem?_map, List.getElem?_eq_getElem hi]

/-- C9: a simulated year with zero drawn claim count contributes an
aggregate-loss realization of exactly 0 — equal consecutive cumulative
counts make the corresponding split group empty, whose sum is 0 — and
exactly `n_sim` aggregate realizations are produced (for well-formed
inputs `n_sim ≥ 1` with the claim-count sampler returning `n_sim`
counts), regardless of how many counts are zero. -/
theorem claim_C9 (severity : SeverityModel) (frequency : FrequencyModel)
    (cover deductible : ℚ) (n_sim random_state : ℕ) (ustream : ℕ → ℕ → ℚ)
    (hn : 1 ≤ n_sim)
    (hlen : (frequency.rvs n_sim random_state).length = n_sim) :
    (mcXsim severity frequency cover deductible n_sim random_state ustream).length = n_sim ∧
    ∀ i < n_sim, (frequency.rvs n_sim random_state).getD i 0 = 0 →
      (mcXsim severity frequency cover deductible n_sim random_state ustream).getD i 0 = 0 := by
  have hne : frequency.rvs n_sim random_state ≠ [] := by
    intro hcontra
    rw [hcontra] at hlen
    simp at hlen
    omega
  have hsvlen : (mcSvsample severity deductible cover
      (frequency.rvs n_sim random_state).sum ustream (random_state + 1)).length =
      (frequency.rvs n_sim random_state).sum := by
    simp [mcSvsample]
  have heq : mcXsim severity frequency cover deductible n_sim random_state ustream =
      (splitCounts (frequency.rvs n_sim random_state)
        (mcSvsample severity deductible cover
          (frequency.rvs n_sim random_state).sum ustream (random_state + 1))).map
        List.sum := by
    simp only [mcXsim]
    have e : n_sim - 1 = (frequency.rvs n_sim random_state).length - 1 := by rw [hlen]
    rw [e, npSplit_cumsum_eq_splitCounts _ _ hne hsvlen]
  constructor
  · rw [heq, List.length_map, splitCounts_length, hlen]
  · intro i hi hz
    rw [heq, getD_map_sum _ i (by rw [splitCounts_length, hlen]; exact hi),
      splitCounts_zero_group _ _ i (by rw [hlen]; exact hi) hz]
    rfl

/-- C9 (witness): with concrete counts `[0, 1]` (year 0 has zero
claims), exactly 2 realizations are produced and the zero-claim year
contributes 0. -/
theorem claim_C9_witness :
    (mcXsim cSev cFreq 10 0 2 5 cU).length = 2 ∧
    ∀ i < 2, (cFreq.rvs 2 5).getD i 0 = 0 →
      (mcXsim cSev cFreq 10 0 2 5 cU).getD i 0 = 0 :=
  claim_C9 cSev cFreq 10 0 2 5 cU (by norm_num) (by simp [cFreq])

/-- C10: when the tilt flag is false the supplied `tilt_value` is
ignored entirely — the output with `tilt = false` and any `tilt_value`
equals the output with `tilt = false` and `tilt_value = None`, because
the tilting parameter is 0 whenever the flag is false. -/
theorem claim_C10 (severity : DiscrSev) (frequency : FrequencyModel)
    (n_aggr_dist_nodes : ℕ) (discr_step : ℚ) (tilt_value : Option ℚ)
    (normalize : Bool) (ops : FourierOps) :
    fast_fourier_transform severity frequency n_aggr_dist_nodes discr_step
      false tilt_value normalize ops =
    fast_fourier_transform severity frequency n_aggr_dist_nodes discr_step
      false none normalize ops := rfl

end Gemact
